import Mathlib

/-!
# Verification of `ACO.py` (ant-colony TSP solver)

Shallow embedding of the single source file `src/ACO.py` and proofs about it.

Numeric model: the Python program computes with IEEE `float64` (numpy), whose
values here are idealised as extended rationals `ERat` (`ninf` for `np.NINF`,
`fin q` for finite values, `pinf` for `+inf`).  Finite arithmetic is exact
(no rounding); the infinite cases follow the IEEE rules on the combinations
the program can reach for the inputs considered in the theorems below (the
NaN-producing combinations `0 * inf`, `inf - inf`, `0 / 0`, `inf / inf` are
given the junk value `fin 0` and are not relied on by any theorem).

Randomness: `random.choices(population, weights, k=1)` validates its inputs
exactly as CPython does (length mismatch and non-positive total raise
`ValueError`) and then returns one element of `population`; the chosen index
is modelled by an explicit selection stream `sig : Nat -> Nat`, taken modulo
the number of candidates.  Quantifying over `sig` covers every sequence of
draws the real sampler can produce.

Python exceptions that the program itself can raise are modelled with
`Except PyErr`; the source has no `try`/`except`, so any raised error
propagates out of `ant_search`.
-/

namespace ACOSpec

/-- Extended rationals: the value domain of the numpy `float64` matrices.
`ninf` is `np.NINF` (the "no edge" sentinel), `pinf` is `+inf`. -/
inductive ERat where
  | ninf : ERat
  | fin : ℚ → ERat
  | pinf : ERat
deriving DecidableEq, Repr

namespace ERat

/-- IEEE `<` restricted to non-NaN values. -/
def blt : ERat → ERat → Bool
  | ninf, ninf => false
  | ninf, _ => true
  | fin _, ninf => false
  | fin a, fin b => decide (a < b)
  | fin _, pinf => true
  | pinf, _ => false

/-- IEEE `<=` restricted to non-NaN values. -/
def ble : ERat → ERat → Bool
  | ninf, _ => true
  | fin _, ninf => false
  | fin a, fin b => decide (a ≤ b)
  | fin _, pinf => true
  | pinf, pinf => true
  | pinf, _ => false

/-- IEEE addition restricted to non-NaN values; the NaN case
`(+inf) + (-inf)` is mapped to the junk value `fin 0` (never reached by the
theorems below). -/
def add : ERat → ERat → ERat
  | fin a, fin b => fin (a + b)
  | ninf, pinf => fin 0
  | pinf, ninf => fin 0
  | ninf, _ => ninf
  | _, ninf => ninf
  | pinf, _ => pinf
  | _, pinf => pinf

/-- IEEE multiplication restricted to non-NaN values; the NaN cases
`0 * (+-inf)` are mapped to the junk value `fin 0`. -/
def mul : ERat → ERat → ERat
  | fin a, fin b => fin (a * b)
  | fin a, pinf => if 0 < a then pinf else if a < 0 then ninf else fin 0
  | fin a, ninf => if 0 < a then ninf else if a < 0 then pinf else fin 0
  | pinf, fin b => if 0 < b then pinf else if b < 0 then ninf else fin 0
  | ninf, fin b => if 0 < b then ninf else if b < 0 then pinf else fin 0
  | pinf, pinf => pinf
  | ninf, ninf => pinf
  | pinf, ninf => ninf
  | ninf, pinf => ninf

/-- IEEE division restricted to non-NaN values.  Division of a nonzero
finite value by (positive) zero gives a signed infinity, as numpy's
`float64` division does (numpy warns but does not raise).  The NaN cases
`0 / 0` and `inf / inf` are mapped to the junk value `fin 0`. -/
def div : ERat → ERat → ERat
  | fin a, fin b =>
    if b = 0 then (if 0 < a then pinf else if a < 0 then ninf else fin 0)
    else fin (a / b)
  | fin _, pinf => fin 0
  | fin _, ninf => fin 0
  | pinf, fin b => if 0 ≤ b then pinf else ninf
  | ninf, fin b => if 0 ≤ b then ninf else pinf
  | _, _ => fin 0

/-- Python `x ** n` for a float `x` and a non-negative int `n`
(`x ** 0 = 1.0`, including `0.0 ** 0` and `inf ** 0`). -/
def pow (x : ERat) : ℕ → ERat
  | 0 => fin 1
  | n + 1 =>
    match x with
    | fin a => fin (a ^ (n + 1))
    | pinf => pinf
    | ninf => if (n + 1) % 2 = 0 then pinf else ninf

/-- Entries of pheromone matrices reachable with non-negative costs:
the sentinel, `+inf`, or a non-negative finite value. -/
def nonnegOrInf : ERat → Prop
  | fin a => 0 ≤ a
  | _ => True

end ERat

/-- A numpy 2-D array of floats: `shape = (rows, cols)` plus the entries.
Reads within the program stay inside the shape bounds on every execution
considered below, so `entry` is total. -/
structure NPMat where
  rows : ℕ
  cols : ℕ
  entry : ℕ → ℕ → ERat

/-- Build an `NPMat` from a rectangular list of rows (row-major), as
`np.array` does.  Out-of-range reads default to `fin 0`; no execution
considered below performs one. -/
def matOf (l : List (List ERat)) : NPMat where
  rows := l.length
  cols := (l.headD []).length
  entry := fun i j => ((l.getD i []).getD j (ERat.fin 0))

/-- The mutable pheromone array, represented by its entries. -/
abbrev Phs := ℕ → ℕ → ERat

/-- Exceptions the program can raise (there are no handlers in the source). -/
inductive PyErr where
  | valueError : PyErr
  | indexError : PyErr
deriving DecidableEq, Repr

/-- Class `_Ant`: a path (list of city indices) and a cumulative cost.
`path` is created as `[city]` and only ever appended to, so it is never
empty. -/
structure Ant where
  path : List ℕ
  cost : ERat
deriving DecidableEq, Repr

/-- `_Ant.city`: `self.path[-1]`. -/
def Ant.city (a : Ant) : ℕ := a.path.getLastD 0

/-- `_Ant.start`: `self.path[0]`. -/
def Ant.start (a : Ant) : ℕ := a.path.headD 0

/-- `_Ant.go`: `self.cost += graph[self.city, next_city]` (with the
pre-append current city), then `self.path.append(next_city)`. -/
def Ant.go (a : Ant) (next_city : ℕ) (g : NPMat) : Ant where
  path := a.path ++ [next_city]
  cost := ERat.add a.cost (g.entry a.city next_city)

/-- `_init_ants`: one `_Ant(city)` per `(city, replicate)` pair, cities in
`range(cities_count)` outermost, `n_ants` replicates each. -/
def initAnts (cities_count n_ants : ℕ) : List Ant :=
  (List.range cities_count).flatMap
    (fun city => List.replicate n_ants (Ant.mk [city] (ERat.fin 0)))

/-- `_init_pheromones`: `phs = graph.copy(); phs[phs > np.NINF] = 0`. -/
def initPheromones (g : NPMat) : Phs :=
  fun i j => if ERat.blt ERat.ninf (g.entry i j) then ERat.fin 0 else g.entry i j

/-- `_get_next_paths_standard_step`: for `next_city in range(graph.shape[1])`,
skip cities already in the path and `np.NINF` edges, and extend the path by
one city otherwise. -/
def getNextPathsStandardStep (current_path : List ℕ) (g : NPMat) : List (List ℕ) :=
  let current_city := current_path.getLastD 0
  ((List.range g.cols).filter
      (fun next_city =>
        !(decide (next_city ∈ current_path)) &&
        !(decide (g.entry current_city next_city = ERat.ninf)))).map
    (fun next_city => current_path ++ [next_city])

/-- `_get_next_paths_final_step`: the single edge from `path[-1]` back to
`path[0]`, or no candidate when that edge is the sentinel. -/
def getNextPathsFinalStep (current_path : List ℕ) (g : NPMat) : List (List ℕ) :=
  if g.entry (current_path.getLastD 0) (current_path.headD 0) = ERat.ninf then []
  else [current_path ++ [current_path.headD 0]]

/-- `_get_next_paths`: final step exactly when
`len(current_path) == graph.shape[1]`. -/
def getNextPaths (current_path : List ℕ) (g : NPMat) : List (List ℕ) :=
  if current_path.length = g.cols then getNextPathsFinalStep current_path g
  else getNextPathsStandardStep current_path g

/-- `_get_probability_numerator`, applied to one candidate path
(`current_path + [next_city]`): `1` for the very first hop
(`len(path) == 2`), else `phs[i, j] ** alpha * (1 / graph[i, j]) ** beta`
for the last two cities `i, j` of the candidate path. -/
def getProbabilityNumerator (path : List ℕ) (g : NPMat) (phs : Phs)
    (alpha beta : ℕ) : ERat :=
  if path.length = 2 then ERat.fin 1
  else
    let current_city := path.dropLast.getLastD 0
    let next_city := path.getLastD 0
    let visibility := ERat.div (ERat.fin 1) (g.entry current_city next_city)
    ERat.mul (ERat.pow (phs current_city next_city) alpha)
      (ERat.pow visibility beta)

/-- `_get_next_paths_and_probabilities`: the candidate paths, their
numerators, `denominator = sum(numerators)` (Python's left fold from `0`),
and the probability list — empty when the denominator equals `0`. -/
def getNextPathsAndProbabilities (path : List ℕ) (g : NPMat) (phs : Phs)
    (alpha beta : ℕ) : List (List ℕ) × List ERat :=
  let next_paths := getNextPaths path g
  let numerators :=
    next_paths.map (fun p => getProbabilityNumerator p g phs alpha beta)
  let denominator := numerators.foldl ERat.add (ERat.fin 0)
  let probabilities :=
    if denominator ≠ ERat.fin 0 then numerators.map (fun n => ERat.div n denominator)
    else []
  (next_paths, probabilities)

/-- `_update_ant`.  Returns `(live, updated ant, selection counter)`.
`random.choices(next_paths, weights=probabilities, k=1)` is modelled as in
CPython: it raises `ValueError` when the weight list's length differs from
the population's, or when the total of the weights is not positive;
otherwise it returns the candidate at some index below `len(next_paths)`,
here `sig k % len(next_paths)`. -/
def updateAnt (ant : Ant) (g : NPMat) (phs : Phs) (alpha beta : ℕ)
    (sig : ℕ → ℕ) (k : ℕ) : Except PyErr (Bool × Ant × ℕ) :=
  if (getNextPathsAndProbabilities ant.path g phs alpha beta).1.length = 0 then
    Except.ok (false, ant, k)
  else if (getNextPathsAndProbabilities ant.path g phs alpha beta).2.length ≠
      (getNextPathsAndProbabilities ant.path g phs alpha beta).1.length then
    Except.error PyErr.valueError
  else if ERat.ble ((getNextPathsAndProbabilities ant.path g phs alpha beta).2.foldl
      ERat.add (ERat.fin 0)) (ERat.fin 0) then
    Except.error PyErr.valueError
  else
    Except.ok (true,
      ant.go (((getNextPathsAndProbabilities ant.path g phs alpha beta).1.getD
        (sig k % (getNextPathsAndProbabilities ant.path g phs alpha beta).1.length)
          []).getLastD 0) g,
      k + 1)

/-- `_update_ants`: every ant attempts one move against the same (pre-turn)
matrices; the ants that got no candidate are then removed.  The surviving
list keeps the original order.  An exception aborts the whole run. -/
def updateAnts (g : NPMat) (phs : Phs) (alpha beta : ℕ) (sig : ℕ → ℕ) :
    List Ant → ℕ → Except PyErr (List Ant × ℕ)
  | [], k => Except.ok ([], k)
  | ant :: rest, k =>
    match updateAnt ant g phs alpha beta sig k with
    | Except.error e => Except.error e
    | Except.ok (live, ant2, k2) =>
      match updateAnts g phs alpha beta sig rest k2 with
      | Except.error e => Except.error e
      | Except.ok (survivors, k3) =>
        Except.ok ((if live then [ant2] else []) ++ survivors, k3)

/-- The evaporation step of `_update_pheromones`:
`np.multiply(phs, rho, out=phs)`. -/
def evaporate (phs : Phs) (rho : ℚ) : Phs :=
  fun i j => ERat.mul (phs i j) (ERat.fin rho)

/-- The loop body of `_update_pheromones`:
`prev_city, next_city = ant.path[-2:]; phs[prev_city, next_city] += q / ant.cost`. -/
def depositFor (q : ℚ) (m : Phs) (ant : Ant) : Phs :=
  fun i j =>
    if i = ant.path.dropLast.getLastD 0 ∧ j = ant.path.getLastD 0 then
      ERat.add (m i j) (ERat.div (ERat.fin q) ant.cost)
    else m i j

/-- `_update_pheromones`: evaporate once, then for each ant in the list add
`q / ant.cost` to the entry indexed by the ant's last two path cities. -/
def updatePheromones (ants : List Ant) (phs : Phs) (q rho : ℚ) : Phs :=
  ants.foldl (depositFor q) (evaporate phs rho)

/-- `_turn`: `_update_ants` then `_update_pheromones` on the survivors. -/
def turn (g : NPMat) (q rho : ℚ) (alpha beta : ℕ) (sig : ℕ → ℕ)
    (ants : List Ant) (phs : Phs) (k : ℕ) :
    Except PyErr (List Ant × Phs × ℕ) :=
  match updateAnts g phs alpha beta sig ants k with
  | Except.error e => Except.error e
  | Except.ok (ants2, k2) =>
    Except.ok (ants2, updatePheromones ants2 phs q rho, k2)

/-- The `for i in range(cities_count)` loop of `ant_search`. -/
def runTurns (g : NPMat) (q rho : ℚ) (alpha beta : ℕ) (sig : ℕ → ℕ) :
    ℕ → List Ant → Phs → ℕ → Except PyErr (List Ant × Phs × ℕ)
  | 0, ants, phs, k => Except.ok (ants, phs, k)
  | t + 1, ants, phs, k =>
    match turn g q rho alpha beta sig ants phs k with
    | Except.error e => Except.error e
    | Except.ok (ants2, phs2, k2) => runTurns g q rho alpha beta sig t ants2 phs2 k2

/-- The order Python's `sorted` uses on `_Ant` (`@total_ordering` from
`__lt__` by cost): `a` may come before `b` iff `a.cost <= b.cost`. -/
def antLe (a b : Ant) : Prop := ERat.ble a.cost b.cost = true

instance : DecidableRel antLe := fun a b => decEq _ _

/-- `_find_best_ant`: filter by start city, sort ascending by cost, take
element `[0]` — which raises `IndexError` on an empty list.  Python's
`sorted` is a stable sort by `__lt__`; `List.insertionSort` is the stable
sort for the same total preorder, hence returns the identical list. -/
def findBestAnt (ants : List Ant) (start : ℕ) : Except PyErr Ant :=
  match List.insertionSort antLe (ants.filter (fun ant => ant.start = start)) with
  | [] => Except.error PyErr.indexError
  | best :: _ => Except.ok best

/-- `ant_search(graph, start, n_ants, q, rho, alpha, beta)`: initialise the
population and the pheromones, run `graph.shape[0]` turns, and return
`(best_ant.path, best_ant.cost)` (the vestigial third `None` of the source
is dropped). -/
def antSearch (g : NPMat) (start n_ants : ℕ) (q rho : ℚ) (alpha beta : ℕ)
    (sig : ℕ → ℕ) : Except PyErr (List ℕ × ERat) :=
  match runTurns g q rho alpha beta sig g.rows
      (initAnts g.rows n_ants) (initPheromones g) 0 with
  | Except.error e => Except.error e
  | Except.ok (ants2, _, _) =>
    match findBestAnt ants2 start with
    | Except.error e => Except.error e
    | Except.ok best => Except.ok (best.path, best.cost)

/-- The cumulative cost of a path: the sum of the cost-matrix entries along
its consecutive edges, accumulated left-to-right exactly as the ants do. -/
def pathCostFrom (g : NPMat) : ERat → List ℕ → ERat
  | acc, [] => acc
  | acc, [_] => acc
  | acc, a :: b :: rest => pathCostFrom g (ERat.add acc (g.entry a b)) (b :: rest)

/-- `pathCost g p` is the sum of `g`'s entries along `p`'s consecutive
edges. -/
def pathCost (g : NPMat) (p : List ℕ) : ERat := pathCostFrom g (ERat.fin 0) p

/-- The per-ant state invariant after `t` completed turns of a run over a
square `n x n` matrix: the path has grown by one city per turn, stays
inside `range n`, has no repeats while the tour is open, and closes back to
its start exactly when `t = n`; the cumulative cost is the edge sum of the
path. -/
def AntInv (g : NPMat) (n t : ℕ) (a : Ant) : Prop :=
  a.path.length = t + 1 ∧
  (∀ c ∈ a.path, c < n) ∧
  (t < n → a.path.Nodup) ∧
  (t = n → a.path.dropLast.Nodup ∧ a.path.headD 0 = a.path.getLastD 0) ∧
  a.cost = pathCost g a.path

/-! ### Concrete inputs used by counterexamples and witnesses -/

/-- The selection stream that always asks for the first candidate; every
`random.choices` call can produce it (each first candidate below has
positive weight whenever selection is reached). -/
def sig0 : ℕ → ℕ := fun _ => 0

/-- Complete 2-city graph, every edge of cost 1, sentinel diagonal. -/
def g2c : NPMat := matOf [[ERat.ninf, ERat.fin 1], [ERat.fin 1, ERat.ninf]]

/-- Complete 3-city graph, every edge of cost 1, sentinel diagonal. -/
def g3c : NPMat := matOf [
  [ERat.ninf, ERat.fin 1, ERat.fin 1],
  [ERat.fin 1, ERat.ninf, ERat.fin 1],
  [ERat.fin 1, ERat.fin 1, ERat.ninf]]

/-- 2-city graph with no edges at all: every ant dies on its first turn. -/
def g2dead : NPMat := matOf [[ERat.ninf, ERat.ninf], [ERat.ninf, ERat.ninf]]

/-- Rectangular (non-square) 2 x 3 cost matrix: rows 0 and 1 exist, city 2
is reachable from city 1 only. `np.array` accepts it; `graph.shape[0] = 2`
drives the turn count while `graph.shape[1] = 3` drives the candidate
range. -/
def g23 : NPMat := matOf [
  [ERat.ninf, ERat.fin 1, ERat.ninf],
  [ERat.fin 1, ERat.ninf, ERat.fin 1]]

/-- Complete 2-city graph whose edges cost `-1`. -/
def gneg : NPMat := matOf [[ERat.ninf, ERat.fin (-1)], [ERat.fin (-1), ERat.ninf]]

/-- Complete 2-city graph whose edges cost `0`: ants complete first moves
with cumulative cost exactly `0`. -/
def g2z : NPMat := matOf [[ERat.ninf, ERat.fin 0], [ERat.fin 0, ERat.ninf]]

/-! ### Basic facts about `ERat` and the sorting order -/

theorem ERat.ble_refl (x : ERat) : ERat.ble x x = true := by
  cases x <;> simp [ERat.ble]

theorem ERat.ble_trans {x y z : ERat} (h1 : ERat.ble x y = true)
    (h2 : ERat.ble y z = true) : ERat.ble x z = true := by
  cases x <;> cases y <;> cases z <;>
    simp_all [ERat.ble] <;> exact le_trans h1 h2

theorem ERat.ble_total (x y : ERat) :
    ERat.ble x y = true ∨ ERat.ble y x = true := by
  cases x <;> cases y <;> simp [ERat.ble] <;> exact le_total _ _

instance : IsTrans Ant antLe where
  trans := fun _ _ _ h1 h2 => ERat.ble_trans h1 h2

instance : IsTotal Ant antLe where
  total := fun a b => ERat.ble_total a.cost b.cost

instance : IsRefl Ant antLe where
  refl := fun a => ERat.ble_refl a.cost

/-! ### Path-cost accumulation -/

theorem pathCostFrom_concat (g : NPMat) :
    ∀ (p : List ℕ) (acc : ERat) (j : ℕ), p ≠ [] →
      pathCostFrom g acc (p ++ [j]) =
        ERat.add (pathCostFrom g acc p) (g.entry (p.getLastD 0) j)
  | [], _, _, h => absurd rfl h
  | [a], acc, j, _ => by simp [pathCostFrom]
  | a :: b :: rest, acc, j, _ => by
    have ih := pathCostFrom_concat g (b :: rest) (ERat.add acc (g.entry a b)) j
      (by simp)
    simpa [pathCostFrom] using ih

theorem pathCost_concat (g : NPMat) (p : List ℕ) (j : ℕ) (h : p ≠ []) :
    pathCost g (p ++ [j]) = ERat.add (pathCost g p) (g.entry (p.getLastD 0) j) :=
  pathCostFrom_concat g p (ERat.fin 0) j h

theorem pathCost_single (g : NPMat) (c : ℕ) : pathCost g [c] = ERat.fin 0 := rfl

/-! ### Candidate generation -/

theorem mem_getNextPathsStandardStep {p : List ℕ} {g : NPMat} {q : List ℕ}
    (h : q ∈ getNextPathsStandardStep p g) :
    ∃ j, q = p ++ [j] ∧ j < g.cols ∧ j ∉ p ∧
      g.entry (p.getLastD 0) j ≠ ERat.ninf := by
  simp only [getNextPathsStandardStep, List.mem_map, List.mem_filter,
    List.mem_range, Bool.and_eq_true, Bool.not_eq_true', decide_eq_false_iff_not] at h
  obtain ⟨j, ⟨hj, hnot, hedge⟩, rfl⟩ := h
  exact ⟨j, rfl, hj, hnot, hedge⟩

theorem mem_getNextPathsFinalStep {p : List ℕ} {g : NPMat} {q : List ℕ}
    (h : q ∈ getNextPathsFinalStep p g) :
    q = p ++ [p.headD 0] ∧ g.entry (p.getLastD 0) (p.headD 0) ≠ ERat.ninf := by
  unfold getNextPathsFinalStep at h
  split at h
  · exact absurd h (List.not_mem_nil _)
  · rename_i hc
    rw [List.mem_singleton] at h
    exact ⟨h, hc⟩

theorem mem_getNextPaths {p : List ℕ} {g : NPMat} {q : List ℕ}
    (h : q ∈ getNextPaths p g) :
    ∃ j, q = p ++ [j] ∧ g.entry (p.getLastD 0) j ≠ ERat.ninf ∧
      ((p.length = g.cols ∧ j = p.headD 0) ∨
        (p.length ≠ g.cols ∧ j < g.cols ∧ j ∉ p)) := by
  unfold getNextPaths at h
  by_cases hl : p.length = g.cols
  · rw [if_pos hl] at h
    obtain ⟨hq, hedge⟩ := mem_getNextPathsFinalStep h
    exact ⟨p.headD 0, hq, hedge, Or.inl ⟨hl, rfl⟩⟩
  · rw [if_neg hl] at h
    obtain ⟨j, hq, hj, hnot, hedge⟩ := mem_getNextPathsStandardStep h
    exact ⟨j, hq, hedge, Or.inr ⟨hl, hj, hnot⟩⟩

/-! ### One ant, one turn -/

theorem updateAnt_advance {a a2 : Ant} {g : NPMat} {phs : Phs}
    {alpha beta : ℕ} {sig : ℕ → ℕ} {k k2 : ℕ}
    (h : updateAnt a g phs alpha beta sig k = Except.ok (true, a2, k2)) :
    ∃ j, a2.path = a.path ++ [j] ∧
      a2.cost = ERat.add a.cost (g.entry (a.path.getLastD 0) j) ∧
      g.entry (a.path.getLastD 0) j ≠ ERat.ninf ∧
      ((a.path.length = g.cols ∧ j = a.path.headD 0) ∨
        (a.path.length ≠ g.cols ∧ j < g.cols ∧ j ∉ a.path)) := by
  unfold updateAnt at h
  split at h
  · simp at h
  · split at h
    · exact absurd h (by simp)
    · split at h
      · exact absurd h (by simp)
      · rename_i h0 _ _
        have hpos : 0 < (getNextPathsAndProbabilities a.path g phs alpha beta).1.length :=
          Nat.pos_of_ne_zero h0
        have hlt : sig k % (getNextPathsAndProbabilities a.path g phs alpha beta).1.length <
            (getNextPathsAndProbabilities a.path g phs alpha beta).1.length :=
          Nat.mod_lt _ hpos
        have hsel : (getNextPathsAndProbabilities a.path g phs alpha beta).1.getD
            (sig k % (getNextPathsAndProbabilities a.path g phs alpha beta).1.length) []
            ∈ (getNextPathsAndProbabilities a.path g phs alpha beta).1 := by
          rw [List.getD_eq_getElem?_getD, List.getElem?_eq_getElem hlt]
          exact List.getElem_mem hlt
        have hfst : (getNextPathsAndProbabilities a.path g phs alpha beta).1 =
            getNextPaths a.path g := rfl
        rw [hfst] at hsel
        obtain ⟨j, hq, hedge, hbranch⟩ := mem_getNextPaths hsel
        have hx := Except.ok.inj h
        have ha2 : a.go (((getNextPathsAndProbabilities a.path g phs alpha beta).1.getD
            (sig k % (getNextPathsAndProbabilities a.path g phs alpha beta).1.length)
              []).getLastD 0) g = a2 :=
          congrArg (fun r : Bool × Ant × ℕ => r.2.1) hx
        rw [hfst, hq, List.getLastD_concat] at ha2
        refine ⟨j, ?_, ?_, hedge, hbranch⟩
        · rw [← ha2]; rfl
        · rw [← ha2]; rfl

theorem updateAnts_mem {g : NPMat} {phs : Phs} {alpha beta : ℕ} {sig : ℕ → ℕ} :
    ∀ {ants : List Ant} {k : ℕ} {ants2 : List Ant} {k2 : ℕ},
      updateAnts g phs alpha beta sig ants k = Except.ok (ants2, k2) →
      ∀ a2 ∈ ants2, ∃ a ∈ ants, ∃ k0 k1,
        updateAnt a g phs alpha beta sig k0 = Except.ok (true, a2, k1)
  | [], _, _, _, h, a2, ha2 => by
    have h1 : _ = ([] : List Ant) :=
      (congrArg (fun r : List Ant × ℕ => r.1) (Except.ok.inj h)).symm
    subst h1
    exact absurd ha2 (List.not_mem_nil _)
  | ant :: rest, k, ants2, k2, h, a2, ha2 => by
    unfold updateAnts at h
    split at h
    · exact absurd h (by simp)
    · rename_i live ant2 k2' heq
      split at h
      · exact absurd h (by simp)
      · rename_i survivors k3 heq2
        have hl : ants2 = (if live then [ant2] else []) ++ survivors :=
          (congrArg (fun r : List Ant × ℕ => r.1) (Except.ok.inj h)).symm
        subst hl
        rw [List.mem_append] at ha2
        rcases ha2 with hin | hin
        · cases live with
          | false => simp at hin
          | true =>
            simp at hin
            subst hin
            exact ⟨ant, List.mem_cons_self _ _, k, k2', heq⟩
        · obtain ⟨a, hmem, k0, k1, hup⟩ := updateAnts_mem heq2 a2 hin
          exact ⟨a, List.mem_cons_of_mem _ hmem, k0, k1, hup⟩

/-! ### Small list facts -/

theorem headD_concat_of_ne_nil {p : List ℕ} (j : ℕ) (h : p ≠ []) :
    (p ++ [j]).headD 0 = p.headD 0 := by
  cases p with
  | nil => exact absurd rfl h
  | cons a l => rfl

theorem headD_mem_of_ne_nil {p : List ℕ} (h : p ≠ []) : p.headD 0 ∈ p := by
  cases p with
  | nil => exact absurd rfl h
  | cons a l => exact List.mem_cons_self _ _

theorem nodup_concat_iff {p : List ℕ} {j : ℕ} :
    (p ++ [j]).Nodup ↔ p.Nodup ∧ j ∉ p := by
  constructor
  · intro h
    rw [List.nodup_append] at h
    exact ⟨h.1, fun hj => h.2.2 hj (List.mem_singleton_self j)⟩
  · intro ⟨h1, h2⟩
    rw [List.nodup_append]
    refine ⟨h1, List.nodup_singleton j, ?_⟩
    intro x hx hx2
    rw [List.mem_singleton] at hx2
    subst hx2
    exact h2 hx

/-! ### The per-turn invariant step -/

theorem antInv_step {g : NPMat} {n t : ℕ} (hc : g.cols = n) (ht : t < n)
    {a a2 : Ant} {phs : Phs} {alpha beta : ℕ} {sig : ℕ → ℕ} {k k2 : ℕ}
    (ha : AntInv g n t a)
    (h : updateAnt a g phs alpha beta sig k = Except.ok (true, a2, k2)) :
    AntInv g n (t + 1) a2 := by
  obtain ⟨hlen, hmem, hnodup, _, hcost⟩ := ha
  obtain ⟨j, hp2, hc2, _, hbr⟩ := updateAnt_advance h
  have hne : a.path ≠ [] := by
    intro e
    rw [e] at hlen
    simp at hlen
  have hlen2 : a2.path.length = (t + 1) + 1 := by
    rw [hp2]
    simp [hlen]
  have hcost2 : a2.cost = pathCost g a2.path := by
    rw [hp2, pathCost_concat g a.path j hne, ← hcost, hc2]
  rcases hbr with ⟨hfin, hj⟩ | ⟨hnfin, hj, hnot⟩
  · -- final step: `len(path) == graph.shape[1]`, so `t + 1 = n`
    have htn : t + 1 = n := by
      rw [← hc, ← hfin, hlen]
    refine ⟨hlen2, ?_, ?_, ?_, hcost2⟩
    · intro c hcmem
      rw [hp2, List.mem_append] at hcmem
      rcases hcmem with hcm | hcm
      · exact hmem c hcm
      · rw [List.mem_singleton] at hcm
        subst hcm
        rw [hj]
        exact hmem _ (headD_mem_of_ne_nil hne)
    · intro hlt
      omega
    · intro _
      refine ⟨?_, ?_⟩
      · rw [hp2, List.dropLast_concat]
        exact hnodup ht
      · rw [hp2, headD_concat_of_ne_nil j hne, List.getLastD_concat, hj]
  · -- standard step: `t + 1 < n` or the branch condition would have held
    have htn : t + 1 ≠ n := by
      rw [← hc, ← hlen]
      exact hnfin
    refine ⟨hlen2, ?_, ?_, ?_, hcost2⟩
    · intro c hcmem
      rw [hp2, List.mem_append] at hcmem
      rcases hcmem with hcm | hcm
      · exact hmem c hcm
      · rw [List.mem_singleton] at hcm
        subst hcm
        rw [← hc]
        exact hj
    · intro _
      rw [hp2, nodup_concat_iff]
      exact ⟨hnodup ht, hnot⟩
    · intro heq
      exact absurd heq htn

/-! ### The invariant through the turn loop -/

theorem runTurns_antInv {g : NPMat} {n : ℕ} (hc : g.cols = n)
    {q rho : ℚ} {alpha beta : ℕ} {sig : ℕ → ℕ} :
    ∀ (rem d : ℕ) (ants : List Ant) (phs : Phs) (k : ℕ)
      {ants2 : List Ant} {phs2 : Phs} {k2 : ℕ},
      d + rem = n →
      (∀ a ∈ ants, AntInv g n d a) →
      runTurns g q rho alpha beta sig rem ants phs k = Except.ok (ants2, phs2, k2) →
      ∀ a ∈ ants2, AntInv g n n a
  | 0, d, ants, phs, k, ants2, phs2, k2, hd, hinv, h => by
    have h1 : ants2 = ants :=
      (congrArg (fun r : List Ant × Phs × ℕ => r.1) (Except.ok.inj h)).symm
    subst h1
    have hdn : d = n := by omega
    subst hdn
    exact hinv
  | rem + 1, d, ants, phs, k, ants2, phs2, k2, hd, hinv, h => by
    rw [runTurns] at h
    split at h
    · exact absurd h (by simp)
    · rename_i antsA phsA kA heq
      unfold turn at heq
      split at heq
      · exact absurd heq (by simp)
      · rename_i antsB kB hup
        have h1 : antsB = antsA :=
          congrArg (fun r : List Ant × Phs × ℕ => r.1) (Except.ok.inj heq)
        have hnext : ∀ a ∈ antsA, AntInv g n (d + 1) a := by
          intro a2 ha2
          rw [← h1] at ha2
          obtain ⟨a, hmem, k0, k1, hadv⟩ := updateAnts_mem hup a2 ha2
          exact antInv_step hc (by omega) (hinv a hmem) hadv
        exact runTurns_antInv hc rem (d + 1) antsA phsA kA (by omega) hnext h

/-! ### Entrywise description of the pheromone update -/

theorem foldl_depositFor_apply (q : ℚ) :
    ∀ (ants : List Ant) (m : Phs) (i j : ℕ),
      (ants.foldl (depositFor q) m) i j =
        (ants.filter (fun a => decide (i = a.path.dropLast.getLastD 0 ∧
            j = a.path.getLastD 0))).foldl
          (fun acc a => ERat.add acc (ERat.div (ERat.fin q) a.cost)) (m i j)
  | [], m, i, j => rfl
  | a :: rest, m, i, j => by
    rw [List.foldl_cons, foldl_depositFor_apply q rest (depositFor q m a) i j,
      List.filter_cons]
    by_cases hc : i = a.path.dropLast.getLastD 0 ∧ j = a.path.getLastD 0
    · rw [if_pos (by simpa using hc), List.foldl_cons]
      have hd : depositFor q m a i j =
          ERat.add (m i j) (ERat.div (ERat.fin q) a.cost) := by
        unfold depositFor
        rw [if_pos hc]
      rw [hd]
    · rw [if_neg (by simpa using hc)]
      have hd : depositFor q m a i j = m i j := by
        unfold depositFor
        rw [if_neg hc]
      rw [hd]

theorem updatePheromones_apply (ants : List Ant) (phs : Phs) (q rho : ℚ)
    (i j : ℕ) :
    updatePheromones ants phs q rho i j =
      (ants.filter (fun a => decide (i = a.path.dropLast.getLastD 0 ∧
          j = a.path.getLastD 0))).foldl
        (fun acc a => ERat.add acc (ERat.div (ERat.fin q) a.cost))
        (ERat.mul (phs i j) (ERat.fin rho)) :=
  foldl_depositFor_apply q ants (evaporate phs rho) i j

/-! ### Sentinel entries are never written -/

theorem evaporate_ninf {phs : Phs} {rho : ℚ} (hrho : 0 < rho) {i j : ℕ}
    (h : phs i j = ERat.ninf) : evaporate phs rho i j = ERat.ninf := by
  unfold evaporate
  rw [h]
  show (if 0 < rho then ERat.ninf else if rho < 0 then ERat.pinf else ERat.fin 0) = _
  rw [if_pos hrho]

theorem foldl_depositFor_sentinel {g : NPMat} {q : ℚ} :
    ∀ (ants : List Ant) (m : Phs),
      (∀ a ∈ ants, g.entry (a.path.dropLast.getLastD 0) (a.path.getLastD 0) ≠
        ERat.ninf) →
      ∀ i j, g.entry i j = ERat.ninf → m i j = ERat.ninf →
        (ants.foldl (depositFor q) m) i j = ERat.ninf
  | [], m, _, i, j, _, hm => hm
  | a :: rest, m, hants, i, j, hg, hm => by
    rw [List.foldl_cons]
    refine foldl_depositFor_sentinel rest (depositFor q m a)
      (fun x hx => hants x (List.mem_cons_of_mem _ hx)) i j hg ?_
    unfold depositFor
    have hedge := hants a (List.mem_cons_self _ _)
    rw [if_neg ?_]
    · exact hm
    · intro ⟨h1, h2⟩
      rw [h1, h2] at hg
      exact hedge hg

theorem turn_sentinel {g : NPMat} {q rho : ℚ} {alpha beta : ℕ} {sig : ℕ → ℕ}
    {ants : List Ant} {phs : Phs} {k : ℕ} {ants2 : List Ant} {phs2 : Phs} {k2 : ℕ}
    (hrho : 0 < rho)
    (hp : ∀ i j, g.entry i j = ERat.ninf → phs i j = ERat.ninf)
    (h : turn g q rho alpha beta sig ants phs k = Except.ok (ants2, phs2, k2)) :
    ∀ i j, g.entry i j = ERat.ninf → phs2 i j = ERat.ninf := by
  unfold turn at h
  split at h
  · exact absurd h (by simp)
  · rename_i antsB kB hup
    have h2 : phs2 = updatePheromones antsB phs q rho := by
      have := congrArg (fun r : List Ant × Phs × ℕ => r.2.1) (Except.ok.inj h)
      exact this.symm
    subst h2
    intro i j hg
    unfold updatePheromones
    refine foldl_depositFor_sentinel antsB (evaporate phs rho) ?_ i j hg
      (evaporate_ninf hrho (hp i j hg))
    intro a2 ha2
    obtain ⟨a, _, k0, k1, hadv⟩ := updateAnts_mem hup a2 ha2
    obtain ⟨j2, hp2, _, hedge, _⟩ := updateAnt_advance hadv
    rw [hp2, List.dropLast_concat, List.getLastD_concat]
    exact hedge

theorem runTurns_sentinel {g : NPMat} {q rho : ℚ} {alpha beta : ℕ}
    {sig : ℕ → ℕ} (hrho : 0 < rho) :
    ∀ (t : ℕ) (ants : List Ant) (phs : Phs) (k : ℕ)
      {ants2 : List Ant} {phs2 : Phs} {k2 : ℕ},
      (∀ i j, g.entry i j = ERat.ninf → phs i j = ERat.ninf) →
      runTurns g q rho alpha beta sig t ants phs k = Except.ok (ants2, phs2, k2) →
      ∀ i j, g.entry i j = ERat.ninf → phs2 i j = ERat.ninf
  | 0, ants, phs, k, ants2, phs2, k2, hp, h => by
    have h2 : phs2 = phs :=
      (congrArg (fun r : List Ant × Phs × ℕ => r.2.1) (Except.ok.inj h)).symm
    subst h2
    exact hp
  | t + 1, ants, phs, k, ants2, phs2, k2, hp, h => by
    rw [runTurns] at h
    split at h
    · exact absurd h (by simp)
    · rename_i antsA phsA kA heq
      exact runTurns_sentinel hrho t antsA phsA kA
        (turn_sentinel hrho hp heq) h

/-! ### Claim C7 -/

/-- C7: for an ant with path `p` and a candidate next city `j`, the selection
numerator of the extended path `p ++ [j]` is `1` when the ant's path holds
exactly one city (its very first move), and otherwise equals
`pheromone(i, j) ^ alpha * (1 / cost(i, j)) ^ beta` where `i` is the ant's
current (last) city. -/
theorem numerator_first_hop_one_else_formula (p : List ℕ) (j : ℕ) (g : NPMat)
    (phs : Phs) (alpha beta : ℕ) (h : p ≠ []) :
    getProbabilityNumerator (p ++ [j]) g phs alpha beta =
      if p.length = 1 then ERat.fin 1
      else ERat.mul (ERat.pow (phs (p.getLastD 0) j) alpha)
        (ERat.pow (ERat.div (ERat.fin 1) (g.entry (p.getLastD 0) j)) beta) := by
  unfold getProbabilityNumerator
  by_cases hl : p.length = 1
  · rw [if_pos (by simp [hl]), if_pos hl]
  · rw [if_neg (by simp [hl]), if_neg hl, List.dropLast_concat, List.getLastD_concat]

/-- Witness for C7: both branches at concrete inputs. -/
theorem numerator_first_hop_one_else_formula_witness :
    getProbabilityNumerator ([0] ++ [1]) g2c (initPheromones g2c) 1 5 = ERat.fin 1 ∧
    getProbabilityNumerator ([0, 1] ++ [2]) g3c (initPheromones g3c) 1 5 =
      ERat.mul (ERat.pow (initPheromones g3c ([0, 1].getLastD 0) 2) 1)
        (ERat.pow (ERat.div (ERat.fin 1) (g3c.entry ([0, 1].getLastD 0) 2)) 5) := by
  constructor
  · rw [numerator_first_hop_one_else_formula [0] 1 g2c (initPheromones g2c) 1 5
      (by simp)]
    rfl
  · rw [numerator_first_hop_one_else_formula [0, 1] 2 g3c (initPheromones g3c) 1 5
      (by simp)]
    rfl

/-! ### Claim C9 -/

/-- Counterexample for C9: on the 2-city graph whose edges cost `-1`
(`q = 100`, `rho = 1/2`), after one turn the pheromone matrix reachable
during the run holds `-100` at entry `(0, 1)`, and evaporating that matrix
with `rho = 1/2` makes the entry larger, not smaller. -/
theorem evaporation_increases_reachable_negative_entry :
    (runTurns gneg 100 (1/2) 1 5 sig0 1 (initAnts 2 1) (initPheromones gneg) 0).map
        (fun r => r.2.1 0 1) = Except.ok (ERat.fin (-100)) ∧
    ERat.ble (evaporate (fun _ _ => ERat.fin (-100)) (1/2) 0 1)
      (ERat.fin (-100)) = false := by
  constructor
  · with_unfolding_all rfl
  · with_unfolding_all rfl

/-- C9 (amended): `evaporate(1.0)` leaves every entry unchanged; for
`0 < rho < 1`, every entry that is the sentinel, infinite, or a nonnegative
finite value — the only values reachable in runs whose costs and `q` are
nonnegative — is mapped by evaporation to a value at most its prior value.
(A negative finite entry, reachable with negative edge costs, strictly
increases instead.) -/
theorem evaporate_identity_and_decreasing :
    (∀ (phs : Phs) (i j : ℕ), evaporate phs 1 i j = phs i j) ∧
    (∀ (phs : Phs) (rho : ℚ) (i j : ℕ), 0 < rho → rho < 1 →
      (phs i j).nonnegOrInf →
      ERat.ble (evaporate phs rho i j) (phs i j) = true) := by
  constructor
  · intro phs i j
    unfold evaporate
    cases h : phs i j with
    | ninf =>
      show (if (0:ℚ) < 1 then ERat.ninf else if (1:ℚ) < 0 then ERat.pinf
        else ERat.fin 0) = ERat.ninf
      rw [if_pos (by norm_num)]
    | fin a =>
      show ERat.fin (a * 1) = ERat.fin a
      rw [mul_one]
    | pinf =>
      show (if (0:ℚ) < 1 then ERat.pinf else if (1:ℚ) < 0 then ERat.ninf
        else ERat.fin 0) = ERat.pinf
      rw [if_pos (by norm_num)]
  · intro phs rho i j h0 h1 hnn
    unfold evaporate
    cases h : phs i j with
    | ninf =>
      show ERat.ble (if 0 < rho then ERat.ninf else if rho < 0 then ERat.pinf
        else ERat.fin 0) ERat.ninf = true
      rw [if_pos h0]
      rfl
    | fin a =>
      rw [h] at hnn
      have ha : 0 ≤ a := hnn
      show ERat.ble (ERat.fin (a * rho)) (ERat.fin a) = true
      simp only [ERat.ble, decide_eq_true_eq]
      exact mul_le_of_le_one_right ha (le_of_lt h1)
    | pinf =>
      show ERat.ble (if 0 < rho then ERat.pinf else if rho < 0 then ERat.ninf
        else ERat.fin 0) ERat.pinf = true
      rw [if_pos h0]
      rfl

/-- Witness for C9: the amended theorem applied at a concrete matrix entry
`4` with `rho = 1` and with `rho = 1/2`. -/
theorem evaporate_identity_and_decreasing_witness :
    evaporate (fun _ _ => ERat.fin 4) 1 0 0 = ERat.fin 4 ∧
    ERat.ble (evaporate (fun _ _ => ERat.fin 4) (1/2) 0 0) (ERat.fin 4) = true :=
  ⟨evaporate_identity_and_decreasing.1 (fun _ _ => ERat.fin 4) 0 0,
    evaporate_identity_and_decreasing.2 (fun _ _ => ERat.fin 4) (1/2) 0 0
      (by norm_num) (by norm_num) (by norm_num [ERat.nonnegOrInf])⟩

/-! ### Claim C6 -/

/-- Counterexample for C6: on the 2-city graph whose edges cost `0`
(`q = 100`, `rho = 1`), the first turn completes without any error — the
deposit for the zero-cost ant is evaluated, the division yields `+inf`
(numpy only warns), and entry `(0, 1)` of the pheromone matrix becomes
`+inf` instead of an exception being raised. -/
theorem zero_cost_deposit_completes_without_error :
    (runTurns g2z 100 1 1 5 sig0 1 (initAnts 2 1) (initPheromones g2z) 0).map
      (fun r => r.2.1 0 1) = Except.ok ERat.pinf := by
  with_unfolding_all rfl

/-- C6 (amended): when an ant's cumulative cost is exactly `0` at the moment
its deposit is due, `_update_pheromones` does not raise: the quotient
`q / 0.0` is numpy float division, which evaluates to `+inf` (for `q > 0`),
and that infinite amount is silently added to the entry indexed by the
ant's last two path cities. -/
theorem zero_cost_deposit_adds_infinity (q rho : ℚ) (hq : 0 < q) (phs : Phs)
    (a : Ant) (hcost : a.cost = ERat.fin 0) :
    updatePheromones [a] phs q rho (a.path.dropLast.getLastD 0)
        (a.path.getLastD 0) =
      ERat.add
        (evaporate phs rho (a.path.dropLast.getLastD 0) (a.path.getLastD 0))
        ERat.pinf := by
  unfold updatePheromones
  rw [List.foldl_cons, List.foldl_nil]
  unfold depositFor
  rw [if_pos ⟨rfl, rfl⟩, hcost]
  congr 1
  show (if (0:ℚ) = 0 then (if 0 < q then ERat.pinf else if q < 0 then ERat.ninf
    else ERat.fin 0) else ERat.fin (q / 0)) = ERat.pinf
  rw [if_pos rfl, if_pos hq]

/-- Witness for C6: the amended theorem at a concrete zero-cost ant. -/
theorem zero_cost_deposit_adds_infinity_witness :
    updatePheromones [Ant.mk [0, 1] (ERat.fin 0)] (initPheromones g2z) 100 1
        ((Ant.mk [0, 1] (ERat.fin 0)).path.dropLast.getLastD 0)
        ((Ant.mk [0, 1] (ERat.fin 0)).path.getLastD 0) =
      ERat.add
        (evaporate (initPheromones g2z) 1
          ((Ant.mk [0, 1] (ERat.fin 0)).path.dropLast.getLastD 0)
          ((Ant.mk [0, 1] (ERat.fin 0)).path.getLastD 0))
        ERat.pinf :=
  zero_cost_deposit_adds_infinity 100 1 (by norm_num) (initPheromones g2z)
    (Ant.mk [0, 1] (ERat.fin 0)) rfl

/-! ### Claim C2 -/

/-- Counterexample for C2: on the complete 3-city unit-cost graph with one
ant per city (`alpha = 1`, `beta = 5`, `rho = 99/100`), every first move can
pick its first candidate; in turn 2 the ant at city 1 has the single
candidate city 2 whose pheromone is still `0`, so the numerator sum is `0`
with a non-empty candidate set — and the whole run aborts with a
`ValueError` (from `random.choices` receiving the empty weight list) instead
of the ant being silently removed. -/
theorem zero_numerator_sum_aborts_run :
    antSearch g3c 0 1 100 (99/100) 1 5 sig0 = Except.error PyErr.valueError := by
  with_unfolding_all rfl

/-- C2 (amended): for every ant and turn, if the candidate set is non-empty
but the sum of all candidates' numerators is zero, the probability list is
empty and `random.choices` raises `ValueError` (its weight list's length
differs from the population's), aborting the run; the ant is not silently
removed. -/
theorem zero_numerator_sum_raises_value_error (a : Ant) (g : NPMat) (phs : Phs)
    (alpha beta : ℕ) (sig : ℕ → ℕ) (k : ℕ)
    (hne : (getNextPaths a.path g).length ≠ 0)
    (hzero : ((getNextPaths a.path g).map
        (fun p => getProbabilityNumerator p g phs alpha beta)).foldl
          ERat.add (ERat.fin 0) = ERat.fin 0) :
    updateAnt a g phs alpha beta sig k = Except.error PyErr.valueError := by
  have h2 : (getNextPathsAndProbabilities a.path g phs alpha beta).2 = [] := by
    simp only [getNextPathsAndProbabilities]
    rw [if_neg (not_not_intro hzero)]
  have hne1 : ¬ (getNextPathsAndProbabilities a.path g phs alpha beta).1.length = 0 :=
    hne
  unfold updateAnt
  rw [if_neg hne1, h2, if_pos ?_]
  intro hlen
  exact hne1 (by simpa using hlen.symm)

/-- Witness for C2: the amended theorem at the concrete turn-2 state of the
counterexample run (ant `[0, 1]`, initial pheromones all zero on edges). -/
theorem zero_numerator_sum_raises_value_error_witness :
    updateAnt (Ant.mk [0, 1] (ERat.fin 1)) g3c (initPheromones g3c) 1 5 sig0 3 =
      Except.error PyErr.valueError :=
  zero_numerator_sum_raises_value_error (Ant.mk [0, 1] (ERat.fin 1)) g3c
    (initPheromones g3c) 1 5 sig0 3
    (by with_unfolding_all decide)
    (by with_unfolding_all rfl)

/-! ### Claim C4 -/

/-- Counterexample for C4: on the 2-city graph with no edges every ant dies
in turn 1, the loop still completes both turns with an empty population —
and `run` then terminates with an unhandled `IndexError` (from
`best_ants[0]` on an empty list), not with any dedicated
`InfeasibleTourError` (no such error exists in the program). -/
theorem no_survivor_raises_index_error_not_infeasible :
    antSearch g2dead 0 1 100 1 1 5 sig0 = Except.error PyErr.indexError ∧
    (runTurns g2dead 100 1 1 5 sig0 2 (initAnts 2 1) (initPheromones g2dead) 0).map
      (fun r => r.1) = Except.ok ([] : List Ant) := by
  constructor
  · with_unfolding_all rfl
  · with_unfolding_all rfl

/-- C4 (amended): whenever the turn loop completes and no surviving ant's
start city equals the requested one, `ant_search` terminates with an
unhandled `IndexError` raised by `best_ants[0]` in `_find_best_ant`; it
never returns a fabricated or partial tour. -/
theorem no_survivor_from_start_raises_index_error (g : NPMat)
    (start n_ants : ℕ) (q rho : ℚ) (alpha beta : ℕ) (sig : ℕ → ℕ)
    (ants2 : List Ant)
    (hrun : (runTurns g q rho alpha beta sig g.rows (initAnts g.rows n_ants)
        (initPheromones g) 0).map (fun r => r.1) = Except.ok ants2)
    (hnone : ∀ a ∈ ants2, ¬ a.start = start) :
    antSearch g start n_ants q rho alpha beta sig =
      Except.error PyErr.indexError := by
  unfold antSearch
  cases e : runTurns g q rho alpha beta sig g.rows (initAnts g.rows n_ants)
      (initPheromones g) 0 with
  | error err =>
    rw [e] at hrun
    simp [Except.map] at hrun
  | ok r =>
    rw [e] at hrun
    have hr : r.1 = ants2 := by simpa [Except.map] using hrun
    obtain ⟨antsR, phsR, kR⟩ := r
    simp only at hr
    have hfil : antsR.filter (fun ant => ant.start = start) = [] := by
      rw [List.filter_eq_nil_iff]
      intro a hmem
      simpa using hnone a (hr ▸ hmem)
    show (match findBestAnt antsR start with
      | Except.error e => Except.error e
      | Except.ok best => Except.ok (best.path, best.cost)) =
        Except.error PyErr.indexError
    unfold findBestAnt
    rw [hfil]
    rfl

/-- Witness for C4: the amended theorem at the no-edge graph, whose
completed run has an empty surviving population. -/
theorem no_survivor_from_start_raises_index_error_witness :
    antSearch g2dead 0 1 100 1 1 5 sig0 = Except.error PyErr.indexError :=
  no_survivor_from_start_raises_index_error g2dead 0 1 100 1 1 5 sig0 []
    (by with_unfolding_all rfl)
    (by intro a ha; exact absurd ha (List.not_mem_nil _))

/-! ### Claim C5 -/

theorem initAnts_zero (n : ℕ) : initAnts n 0 = [] := by
  unfold initAnts
  induction List.range n with
  | nil => rfl
  | cons a l ih => simpa [List.flatMap_cons] using ih

theorem runTurns_nil (g : NPMat) (q rho : ℚ) (alpha beta : ℕ) (sig : ℕ → ℕ) :
    ∀ (t : ℕ) (phs : Phs) (k : ℕ), ∃ phs2,
      runTurns g q rho alpha beta sig t [] phs k = Except.ok ([], phs2, k)
  | 0, phs, k => ⟨phs, rfl⟩
  | t + 1, phs, k => by
    obtain ⟨phs2, h⟩ := runTurns_nil g q rho alpha beta sig t
      (updatePheromones [] phs q rho) k
    exact ⟨phs2, h⟩

/-- Counterexample for C5: calling `ant_search` on a well-formed 2-city
graph with `n_ants = 0` is not rejected by any `ConfigurationError` at
construction — the turn loop runs to completion on the empty population
(second conjunct) and the failure surfaces only afterwards, as the
`IndexError` from best-ant selection (first conjunct). -/
theorem zero_ants_not_rejected_at_construction :
    antSearch g2c 0 0 100 1 1 5 sig0 = Except.error PyErr.indexError ∧
    (runTurns g2c 100 1 1 5 sig0 2 (initAnts 2 0) (initPheromones g2c) 0).map
      (fun r => r.1) = Except.ok ([] : List Ant) := by
  constructor
  · with_unfolding_all rfl
  · with_unfolding_all rfl

/-- C5 (amended): the program performs no construction-time validation at
all; in particular, for every graph, start city and parameter values,
`antsPerCity = 0` is accepted, every turn executes on the empty population,
and the run fails only at best-ant selection with an `IndexError` — no
`ConfigurationError` exists or is raised. -/
theorem no_configuration_validation (g : NPMat) (start : ℕ) (q rho : ℚ)
    (alpha beta : ℕ) (sig : ℕ → ℕ) :
    antSearch g start 0 q rho alpha beta sig = Except.error PyErr.indexError := by
  unfold antSearch
  rw [initAnts_zero]
  obtain ⟨phs2, hrt⟩ := runTurns_nil g q rho alpha beta sig g.rows
    (initPheromones g) 0
  rw [hrt]
  rfl

/-! ### Claim C10 -/

theorem initPheromones_ninf_of_sentinel {g : NPMat} {i j : ℕ}
    (h : g.entry i j = ERat.ninf) : initPheromones g i j = ERat.ninf := by
  unfold initPheromones
  rw [h]
  rfl

theorem sentinel_of_initPheromones_ninf {g : NPMat} {i j : ℕ}
    (h : initPheromones g i j = ERat.ninf) : g.entry i j = ERat.ninf := by
  unfold initPheromones at h
  by_cases hb : ERat.blt ERat.ninf (g.entry i j) = true
  · rw [if_pos hb] at h
    cases h
  · cases he : g.entry i j with
    | ninf => rfl
    | fin a => rw [he] at hb; exact absurd rfl hb
    | pinf => rw [he] at hb; exact absurd rfl hb

/-- C10: pheromone entries initialized to the sentinel (because the cost
matrix has no such edge) are never the target of a deposit — every deposit's
edge was just traversed, hence non-sentinel — so for every number of turns
of a run with `rho > 0`, an entry that started as the sentinel still holds
the sentinel. -/
theorem sentinel_entries_stay_sentinel (g : NPMat) (n_ants t : ℕ)
    (q rho : ℚ) (alpha beta : ℕ) (sig : ℕ → ℕ) (i j : ℕ) (x : ERat)
    (hrho : 0 < rho)
    (hinit : initPheromones g i j = ERat.ninf)
    (hx : (runTurns g q rho alpha beta sig t (initAnts g.rows n_ants)
        (initPheromones g) 0).map (fun r => r.2.1 i j) = Except.ok x) :
    x = ERat.ninf := by
  cases e : runTurns g q rho alpha beta sig t (initAnts g.rows n_ants)
      (initPheromones g) 0 with
  | error err =>
    rw [e] at hx
    simp [Except.map] at hx
  | ok r =>
    rw [e] at hx
    have hxr : r.2.1 i j = x := by simpa [Except.map] using hx
    obtain ⟨antsR, phsR, kR⟩ := r
    simp only at hxr
    rw [← hxr]
    exact runTurns_sentinel hrho t (initAnts g.rows n_ants) (initPheromones g) 0
      (fun i2 j2 h2 => initPheromones_ninf_of_sentinel h2) e i j
      (sentinel_of_initPheromones_ninf hinit)

/-- Witness for C10: the diagonal entry `(0, 0)` of the 2-city unit-cost
graph is the sentinel at initialization and still the sentinel after the
full 2-turn run. -/
theorem sentinel_entries_stay_sentinel_witness : ERat.ninf = ERat.ninf :=
  sentinel_entries_stay_sentinel g2c 1 2 100 1 1 5 sig0 0 0 ERat.ninf
    (by norm_num)
    (by with_unfolding_all rfl)
    (by with_unfolding_all rfl)

/-! ### Claim C1 -/

theorem initAnts_inv (g : NPMat) (n m : ℕ) :
    ∀ a ∈ initAnts n m, AntInv g n 0 a := by
  intro a ha
  unfold initAnts at ha
  rw [List.mem_flatMap] at ha
  obtain ⟨c, hc, hrep⟩ := ha
  rw [List.mem_range] at hc
  rw [List.mem_replicate] at hrep
  obtain ⟨-, rfl⟩ := hrep
  refine ⟨rfl, ?_, ?_, ?_, rfl⟩
  · intro x hx
    rw [List.mem_singleton] at hx
    subst hx
    exact hc
  · intro _
    exact List.nodup_singleton c
  · intro h0
    omega

/-- C1: after the loop of `cities_count` turns over a square cost matrix
with `N >= 2` and sentinel diagonal, every surviving ant's path has length
`cities_count + 1`, starts and ends at the same city, and its first
`cities_count` positions contain every city index `0 .. cities_count - 1`
exactly once. -/
theorem surviving_ants_form_closed_tours (g : NPMat) (n_ants : ℕ) (q rho : ℚ)
    (alpha beta : ℕ) (sig : ℕ → ℕ) (ants2 : List Ant) (a : Ant)
    (hsq : g.cols = g.rows) (hN : 2 ≤ g.rows)
    (hdiag : ∀ i, i < g.rows → g.entry i i = ERat.ninf)
    (hrun : (runTurns g q rho alpha beta sig g.rows (initAnts g.rows n_ants)
        (initPheromones g) 0).map (fun r => r.1) = Except.ok ants2)
    (ha : a ∈ ants2) :
    a.path.length = g.rows + 1 ∧ a.path.headD 0 = a.path.getLastD 0 ∧
    ∀ c, c < g.rows → (a.path.take g.rows).count c = 1 := by
  have hinv : AntInv g g.rows g.rows a := by
    cases e : runTurns g q rho alpha beta sig g.rows (initAnts g.rows n_ants)
        (initPheromones g) 0 with
    | error err =>
      rw [e] at hrun
      simp [Except.map] at hrun
    | ok r =>
      rw [e] at hrun
      have hr : r.1 = ants2 := by simpa [Except.map] using hrun
      obtain ⟨antsR, phsR, kR⟩ := r
      simp only at hr
      exact runTurns_antInv hsq g.rows 0 (initAnts g.rows n_ants)
        (initPheromones g) 0 (by omega) (initAnts_inv g g.rows n_ants) e a
        (hr ▸ ha)
  obtain ⟨hlen, hmem, -, hclosed, -⟩ := hinv
  obtain ⟨hnodup, hhead⟩ := hclosed rfl
  have htake : a.path.take g.rows = a.path.dropLast := by
    rw [List.dropLast_eq_take, hlen]
    simp
  refine ⟨hlen, hhead, ?_⟩
  intro c hc
  rw [htake]
  apply List.count_eq_one_of_mem hnodup
  have hsub : a.path.dropLast.toFinset ⊆ Finset.range g.rows := by
    intro x hx
    rw [List.mem_toFinset] at hx
    rw [Finset.mem_range]
    exact hmem x ((List.dropLast_sublist a.path).subset hx)
  have hcard : a.path.dropLast.toFinset.card = g.rows := by
    rw [List.toFinset_card_of_nodup hnodup, List.length_dropLast, hlen]
    simp
  have heq := Finset.eq_of_subset_of_card_le hsub
    (by rw [hcard, Finset.card_range])
  have hmem2 : c ∈ a.path.dropLast.toFinset := by
    rw [heq, Finset.mem_range]
    exact hc
  rwa [List.mem_toFinset] at hmem2

/-- Witness for C1: the ant `[0, 1, 0]` surviving the full 2-turn run on the
complete 2-city unit-cost graph. -/
theorem surviving_ants_form_closed_tours_witness :
    ([0, 1, 0] : List ℕ).length = g2c.rows + 1 ∧
    ([0, 1, 0] : List ℕ).headD 0 = ([0, 1, 0] : List ℕ).getLastD 0 ∧
    (([0, 1, 0] : List ℕ).take g2c.rows).count 0 = 1 := by
  have h := surviving_ants_form_closed_tours g2c 1 100 1 1 5 sig0
    [Ant.mk [0, 1, 0] (ERat.fin 2), Ant.mk [1, 0, 1] (ERat.fin 2)]
    (Ant.mk [0, 1, 0] (ERat.fin 2))
    (by with_unfolding_all rfl)
    (by with_unfolding_all decide)
    (by
      intro i hi
      have h2 : i < 2 := hi
      interval_cases i
      · with_unfolding_all rfl
      · with_unfolding_all rfl)
    (by with_unfolding_all rfl)
    (List.mem_cons_self _ _)
  exact ⟨h.1, h.2.1, h.2.2 0 (by with_unfolding_all decide)⟩

/-! ### Claim C3 -/

theorem findBestAnt_ok {ants : List Ant} {start : ℕ} {best : Ant}
    (h : findBestAnt ants start = Except.ok best) :
    best ∈ ants ∧ best.start = start ∧
    ∀ a ∈ ants, a.start = start → ERat.ble best.cost a.cost = true := by
  unfold findBestAnt at h
  split at h
  · exact absurd h (by simp)
  · rename_i b rest heq
    have hb : b = best := Except.ok.inj h
    subst hb
    have hperm := List.perm_insertionSort antLe
      (ants.filter (fun ant => ant.start = start))
    rw [heq] at hperm
    have hsorted := List.sorted_insertionSort antLe
      (ants.filter (fun ant => ant.start = start))
    rw [heq] at hsorted
    have hmem : b ∈ ants.filter (fun ant => ant.start = start) :=
      hperm.subset (List.mem_cons_self _ _)
    rw [List.mem_filter] at hmem
    refine ⟨hmem.1, by simpa using hmem.2, ?_⟩
    intro a hmem2 hstart
    have ha : a ∈ b :: rest := hperm.symm.subset
      (by rw [List.mem_filter]; exact ⟨hmem2, by simpa using hstart⟩)
    rcases List.mem_cons.mp ha with rfl | har
    · exact ERat.ble_refl _
    · exact List.rel_of_sorted_cons hsorted a har

/-- Counterexample for C3: on the rectangular 2 x 3 cost matrix `g23`
(`alpha = 0`, `beta = 5`, one ant per city), the run succeeds — it returns
path `[0, 1, 2]` with cost `2` — yet the returned path is not a closed tour:
its last element `2` differs from its first element (and requested start)
`0`.  The source drives the turn count by `graph.shape[0]` but the
candidate range and the closing condition by `graph.shape[1]`, so only
square inputs close their tours. -/
theorem non_square_success_is_not_closed :
    antSearch g23 0 1 100 1 0 5 sig0 = Except.ok ([0, 1, 2], ERat.fin 2) ∧
    ([0, 1, 2] : List ℕ).getLastD 0 ≠ ([0, 1, 2] : List ℕ).headD 0 := by
  constructor
  · with_unfolding_all rfl
  · decide

/-- C3 (amended): for every input with a square cost matrix on which `run`
succeeds, the returned best path starts and ends at the requested start
city, has the full closed-tour length, its returned cost is the sum of the
cost-matrix entries along its consecutive edges, and the returned ant's
cost is minimal among the surviving ants whose start city is the requested
one. -/
theorem ant_search_returns_min_cost_closed_tour (g : NPMat) (start n_ants : ℕ)
    (q rho : ℚ) (alpha beta : ℕ) (sig : ℕ → ℕ) (path : List ℕ) (cost : ERat)
    (ants2 : List Ant)
    (hsq : g.cols = g.rows)
    (hok : antSearch g start n_ants q rho alpha beta sig = Except.ok (path, cost))
    (hsurv : (runTurns g q rho alpha beta sig g.rows (initAnts g.rows n_ants)
        (initPheromones g) 0).map (fun r => r.1) = Except.ok ants2) :
    path.headD 0 = start ∧ path.getLastD 0 = start ∧
    path.length = g.rows + 1 ∧ cost = pathCost g path ∧
    ∀ a ∈ ants2, a.start = start → ERat.ble cost a.cost = true := by
  unfold antSearch at hok
  cases e : runTurns g q rho alpha beta sig g.rows (initAnts g.rows n_ants)
      (initPheromones g) 0 with
  | error err =>
    rw [e] at hok
    exact absurd hok (by simp)
  | ok r =>
    rw [e] at hok
    rw [e] at hsurv
    have hr : r.1 = ants2 := by simpa [Except.map] using hsurv
    obtain ⟨antsR, phsR, kR⟩ := r
    simp only at hr hok
    subst hr
    cases f : findBestAnt antsR start with
    | error err2 =>
      rw [f] at hok
      exact absurd hok (by simp)
    | ok best =>
      rw [f] at hok
      have hpc : best.path = path ∧ best.cost = cost := by
        have := Except.ok.inj hok
        exact ⟨congrArg Prod.fst this, congrArg Prod.snd this⟩
      obtain ⟨hbp, hbc⟩ := hpc
      obtain ⟨hbmem, hbstart, hbmin⟩ := findBestAnt_ok f
      have hinv : AntInv g g.rows g.rows best :=
        runTurns_antInv hsq g.rows 0 (initAnts g.rows n_ants)
          (initPheromones g) 0 (by omega) (initAnts_inv g g.rows n_ants) e
          best hbmem
      obtain ⟨hlen, -, -, hclosed, hcost⟩ := hinv
      obtain ⟨-, hhead⟩ := hclosed rfl
      have hstart : path.headD 0 = start := by
        rw [← hbp]
        exact hbstart
      refine ⟨hstart, ?_, ?_, ?_, ?_⟩
      · rw [← hbp, ← hhead, hbp, hstart]
      · rw [← hbp]
        exact hlen
      · rw [← hbp, ← hbc]
        exact hcost
      · intro a hamem hastart
        rw [← hbc]
        exact hbmin a hamem hastart

/-- Witness for C3: the successful 2-turn run on the complete 2-city
unit-cost graph, whose best ant from start city `0` is `[0, 1, 0]` with
cost `2`; minimality is instanced at that surviving ant itself. -/
theorem ant_search_returns_min_cost_closed_tour_witness :
    ([0, 1, 0] : List ℕ).headD 0 = 0 ∧ ([0, 1, 0] : List ℕ).getLastD 0 = 0 ∧
    ([0, 1, 0] : List ℕ).length = g2c.rows + 1 ∧
    ERat.fin 2 = pathCost g2c [0, 1, 0] ∧
    ERat.ble (ERat.fin 2) (Ant.mk [0, 1, 0] (ERat.fin 2)).cost = true := by
  have h := ant_search_returns_min_cost_closed_tour g2c 0 1 100 1 1 5 sig0
    [0, 1, 0] (ERat.fin 2)
    [Ant.mk [0, 1, 0] (ERat.fin 2), Ant.mk [1, 0, 1] (ERat.fin 2)]
    (by with_unfolding_all rfl)
    (by with_unfolding_all rfl)
    (by with_unfolding_all rfl)
  exact ⟨h.1, h.2.1, h.2.2.1, h.2.2.2.1,
    h.2.2.2.2 (Ant.mk [0, 1, 0] (ERat.fin 2)) (List.mem_cons_self _ _) rfl⟩

/-! ### Claim C8 -/

/-- C8: in every turn, the pheromone update first multiplies every matrix
entry by `rho` exactly once and only then deposits; for every ant that
successfully advanced this turn (exactly the survivors handed to
`_update_pheromones` by `_turn`), `q` divided by that ant's post-move
cumulative cost is added to the entry indexed by the ant's two most recent
path cities, and deposits of several ants on one edge accumulate
additively.  Entrywise: the new value at `(i, j)` is `rho * old(i, j)` plus
the sum of `q / a.cost` over the advanced ants `a` whose last two cities
are `(i, j)`. -/
theorem turn_pheromone_update_formula (g : NPMat) (q rho : ℚ)
    (alpha beta : ℕ) (sig : ℕ → ℕ) (ants : List Ant) (phs : Phs) (k : ℕ)
    (ants2 : List Ant) (k2 : ℕ) (i j : ℕ)
    (hup : updateAnts g phs alpha beta sig ants k = Except.ok (ants2, k2)) :
    turn g q rho alpha beta sig ants phs k =
      Except.ok (ants2, updatePheromones ants2 phs q rho, k2) ∧
    updatePheromones ants2 phs q rho i j =
      (ants2.filter (fun a => decide (i = a.path.dropLast.getLastD 0 ∧
          j = a.path.getLastD 0))).foldl
        (fun acc a => ERat.add acc (ERat.div (ERat.fin q) a.cost))
        (ERat.mul (phs i j) (ERat.fin rho)) := by
  constructor
  · unfold turn
    rw [hup]
  · exact updatePheromones_apply ants2 phs q rho i j

/-- Witness for C8: the first turn on the complete 2-city unit-cost graph;
the entry `(0, 1)` receives the deposit of the ant `[0, 1]` on top of its
evaporated initial value. -/
theorem turn_pheromone_update_formula_witness :
    updatePheromones [Ant.mk [0, 1] (ERat.fin 1), Ant.mk [1, 0] (ERat.fin 1)]
        (initPheromones g2c) 100 1 0 1 =
      ([Ant.mk [0, 1] (ERat.fin 1), Ant.mk [1, 0] (ERat.fin 1)].filter
          (fun a => decide (0 = a.path.dropLast.getLastD 0 ∧
            1 = a.path.getLastD 0))).foldl
        (fun acc a => ERat.add acc (ERat.div (ERat.fin 100) a.cost))
        (ERat.mul (initPheromones g2c 0 1) (ERat.fin 1)) :=
  (turn_pheromone_update_formula g2c 100 1 1 5 sig0 (initAnts 2 1)
    (initPheromones g2c) 0
    [Ant.mk [0, 1] (ERat.fin 1), Ant.mk [1, 0] (ERat.fin 1)] 2 0 1
    (by with_unfolding_all rfl)).2

end ACOSpec
